import Mathlib

/-!
Verification of the deferred mutation queue (`CommandQueue` /
`RawCommandQueue` in `crates/bevy_ecs/src/world/command_queue.rs`).

The byte buffer `Vec<MaybeUninit<u8>>` is modelled as a `List Cell`: each
record is one `Cell.header` cell (the first byte of the `CommandMeta`
header, carrying the type-erased `consume_command_and_get_size` function
pointer) followed by opaque `Cell.byte` cells for the remaining header
bytes and the command's payload bytes.  `metaSize` models
`size_of::<CommandMeta>()` (a single function pointer, 8 bytes on the
64-bit targets).

Caller-defined command types are deeply embedded as `Cmd`:
* `basic i n`      — a command of payload size `n` whose `apply` records `i`
                     in the world (like the `add_index` commands of the
                     repository's tests);
* `pusher i n cs`  — a command whose `apply` records `i` and then queues
                     the commands `cs` onto the world's own queue;
* `panicking i n`  — a command whose `apply` panics (like `PanicCommand`).

The queue under flush is the world's command queue (the
`World::flush_commands` path), so commands queued during an apply land in
the same buffer — exactly the reentrant situation the source handles.
The store's state is the log `applied`; the `Drop` impls of the command
values are logged in `dropped` (a value read out of the buffer is dropped
exactly once: at the end of its `apply`, when discarded, or while
unwinding from a panic inside `apply`).

`std::panic::catch_unwind` / `resume_unwind` (the `feature = "std"` path
of the source) become an `Except` value carrying the panic payload and
the repaired state.  Recursion through `world.flush()` is bounded by a
`fuel` parameter counting flush-nesting depth; `none` means the fuel ran
out (or a read landed outside a record boundary, which is UB in the
source and unreachable for buffers built by `push`).
-/

namespace CommandQueueModel

/-- `size_of::<CommandMeta>()`: the header is one function pointer. -/
def metaSize : Nat := 8

/-- Deeply embedded caller-defined command types, with their payload size
in bytes.  See the module docstring. -/
inductive Cmd where
  | basic (ident : Nat) (size : Nat)
  | pusher (ident : Nat) (size : Nat) (subs : List Cmd)
  | panicking (ident : Nat) (size : Nat)

/-- `size_of::<C>()` for a command type. -/
def Cmd.size : Cmd → Nat
  | .basic _ n => n
  | .pusher _ n _ => n
  | .panicking _ n => n

/-- The identity of a command, used in the apply/drop logs. -/
def Cmd.ident : Cmd → Nat
  | .basic i _ => i
  | .pusher i _ _ => i
  | .panicking i _ => i

/-- One byte slot of the packed buffer.  A `header c` cell is the first
byte of a `CommandMeta` and carries the function pointer specialized to
the concrete command type (reading it back is `read_unaligned` at a
record boundary); `byte` cells are the remaining header bytes and the
payload bytes, whose raw content the queue never interprets itself. -/
inductive Cell where
  | header (c : Cmd)
  | byte

/-- The bytes written for one record: the packed `(CommandMeta, C)` pair,
`metaSize + size_of::<C>()` cells with the header first
(`Packed<C>` is `repr(C, packed)`). -/
def packCmd (c : Cmd) : List Cell :=
  Cell.header c :: List.replicate (metaSize - 1 + c.size) Cell.byte

/-- All records of a list of commands, back to back. -/
def packList (cs : List Cmd) : List Cell :=
  cs.flatMap packCmd

/-- The `CommandQueue` struct: dense byte buffer, read cursor, and the
panic-recovery buffer. -/
structure CommandQueue where
  bytes : List Cell
  cursor : Nat
  panic_recovery : List Cell

/-- A fresh (default) queue. -/
def emptyQueue : CommandQueue := ⟨[], 0, []⟩

/-- `CommandQueue::push` (through `get_raw().push`): reserve and append
the packed `(CommandMeta, C)` pair at the tail. -/
def CommandQueue.push (q : CommandQueue) (c : Cmd) : CommandQueue :=
  { q with bytes := q.bytes ++ packCmd c }

/-- `CommandQueue::append`: `self.bytes.append(&mut other.bytes)` moves
all bytes of `other` onto the tail of `self`, leaving `other.bytes`
empty; no other field is touched. -/
def CommandQueue.append (q other : CommandQueue) : CommandQueue × CommandQueue :=
  ({ q with bytes := q.bytes ++ other.bytes }, { other with bytes := [] })

/-- `CommandQueue::is_empty`: `self.cursor >= self.bytes.len()`. -/
def CommandQueue.is_empty (q : CommandQueue) : Bool :=
  decide (q.bytes.length ≤ q.cursor)

/-- Push several commands in order. -/
def pushList (q : CommandQueue) (cs : List Cmd) : CommandQueue :=
  cs.foldl CommandQueue.push q

/-- The state an apply call threads: the queue storage (reached through
the `RawCommandQueue` pointers) together with the observable world state
(`applied`) and the drop log of the command values (`dropped`). -/
structure ApplyState where
  queue : CommandQueue
  applied : List Nat
  dropped : List Nat

/-- A panic unwinding out of an apply call: the payload and the state the
handler repaired before `resume_unwind`. -/
abbrev FlushResult := Option (Except (Nat × ApplyState) ApplyState)

/-- A push performed from inside an apply behavior
(`world.commands().queue(..)`): same bytes-append as the facade push. -/
def rawPush (s : ApplyState) (c : Cmd) : ApplyState :=
  { s with queue := s.queue.push c }

/-- Queue a list of commands in order from inside an apply behavior. -/
def rawPushList (s : ApplyState) (cs : List Cmd) : ApplyState :=
  cs.foldl rawPush s

/-- `CommandMeta::consume_command_and_get_size`, specialized to the
concrete command type `c`.  With a world (`world = true`) it reads the
value out, runs `command.apply(world)` and then `world.flush()` (the
recursive flush of the world's own deferred queue, passed in as `flush`);
without a world it just drops the value.  A panic inside `apply` unwinds
as `Except.error` after the moved-in value is dropped.  (The source also
advances the local cursor by `size_of::<C>()` here; the advance is
performed by the caller's loop below, where the size is known from the
same record.) -/
def consume_command_and_get_size (flush : ApplyState → FlushResult)
    (world : Bool) (c : Cmd) (s : ApplyState) : FlushResult :=
  match c with
  | .basic i _ =>
      if world then
        flush { s with applied := s.applied ++ [i], dropped := s.dropped ++ [i] }
      else
        some (Except.ok { s with dropped := s.dropped ++ [i] })
  | .pusher i _ subs =>
      if world then
        let s1 := rawPushList { s with applied := s.applied ++ [i] } subs
        flush { s1 with dropped := s1.dropped ++ [i] }
      else
        some (Except.ok { s with dropped := s.dropped ++ [i] })
  | .panicking i _ =>
      if world then
        some (Except.error (i, { s with dropped := s.dropped ++ [i] }))
      else
        some (Except.ok { s with dropped := s.dropped ++ [i] })

/-- The `while local_cursor < stop` loop of
`RawCommandQueue::apply_or_drop_queued`, including the
`catch_unwind`/repair/`resume_unwind` handler and the final truncation to
`start`.  `steps` bounds the number of iterations (each iteration
advances `lc` by at least `metaSize`, so `stop - lc + 1` steps always
suffice); `flush` is the reentrant flush used by the consume fn. -/
def applyLoop (flush : ApplyState → FlushResult) (world : Bool) :
    Nat → Nat → Nat → Nat → ApplyState → FlushResult
  | 0, _, _, _, _ => none
  | steps + 1, start, stop, lc, s =>
      if lc < stop then
        -- read_unaligned of the CommandMeta at the record boundary `lc`
        match s.queue.bytes[lc]? with
        | some (Cell.header c) =>
            -- past the header, then `*cursor += size_of::<C>()` in consume
            let lc2 := lc + metaSize + c.size
            match consume_command_and_get_size flush world c s with
            | none => none
            | some (Except.ok s1) => applyLoop flush world steps start stop lc2 s1
            | some (Except.error (p, s1)) =>
                -- the panicked command's remains were consumed; move the
                -- bytes from after it up to the *current* length into the
                -- recovery buffer, truncate to `start`, and splice the
                -- recovery buffer back only at the outermost level
                let recovery := s1.queue.panic_recovery ++ s1.queue.bytes.drop lc2
                let bytes1 := s1.queue.bytes.take start
                let q2 : CommandQueue :=
                  if start = 0 then ⟨bytes1 ++ recovery, start, []⟩
                  else ⟨bytes1, start, recovery⟩
                some (Except.error (p, { s1 with queue := q2 }))
        | _ => none
      else
        some (Except.ok { s with queue :=
          { s.queue with bytes := s.queue.bytes.take start, cursor := start } })

/-- `RawCommandQueue::apply_or_drop_queued`: snapshot
`start = cursor`, `stop = bytes.len()`, set the shared cursor to `stop`
so commands pushed during the call are invisible to this walk, then run
the loop.  `fuel` bounds the `world.flush()` nesting depth. -/
def apply_or_drop_queued : Nat → Bool → ApplyState → FlushResult
  | 0, _, _ => none
  | fuel + 1, world, s =>
      let start := s.queue.cursor
      let stop := s.queue.bytes.length
      let s1 : ApplyState := { s with queue := { s.queue with cursor := stop } }
      applyLoop (fun t => apply_or_drop_queued fuel true t) world
        (stop - start + 1) start stop start s1

/-- Apply a queue against a fresh world
(`CommandQueue::apply` after the world's own queues are flushed). -/
def applyFresh (fuel : Nat) (q : CommandQueue) : FlushResult :=
  apply_or_drop_queued fuel true { queue := q, applied := [], dropped := [] }

/-- `impl Drop for CommandQueue`: warn (first component) iff `bytes` is
non-empty, then drain in discard mode (`world = None`). -/
def dropQueue (fuel : Nat) (q : CommandQueue) : Bool × FlushResult :=
  (!q.bytes.isEmpty,
   apply_or_drop_queued fuel false { queue := q, applied := [], dropped := [] })

/-- Commands that apply without requeueing or faulting, from
(identity, payload size) pairs. -/
def basics (l : List (Nat × Nat)) : List Cmd :=
  l.map fun p => Cmd.basic p.1 p.2

/-- Modelled from claim C4's wording, NOT from the source, for refinement
comparison with `applyLoop`: a walk whose loop re-reads the buffer's
length dynamically each iteration and so picks up commands pushed during
the call in a later iteration of the same loop, with no nested recursive
flush after a command's apply.  Faulting commands are out of the claim's
scope, so they stop the walk. -/
def dynamicLoop : Nat → Nat → Nat → ApplyState → Option ApplyState
  | 0, _, _, _ => none
  | steps + 1, start, lc, s =>
      if lc < s.queue.bytes.length then
        match s.queue.bytes[lc]? with
        | some (Cell.header c) =>
            let lc2 := lc + metaSize + c.size
            match c with
            | .basic i _ =>
                dynamicLoop steps start lc2
                  { s with applied := s.applied ++ [i], dropped := s.dropped ++ [i] }
            | .pusher i _ subs =>
                let s1 := rawPushList { s with applied := s.applied ++ [i] } subs
                dynamicLoop steps start lc2 { s1 with dropped := s1.dropped ++ [i] }
            | .panicking _ _ => none
        | _ => none
      else
        some { s with queue :=
          { s.queue with bytes := s.queue.bytes.take start, cursor := start } }

/-- Modelled from claim C4's wording: drain from the cursor to the
dynamically re-read buffer length with `dynamicLoop`. -/
def applyDynamic (steps : Nat) (s : ApplyState) : Option ApplyState :=
  dynamicLoop steps s.queue.cursor s.queue.cursor
    { s with queue := { s.queue with cursor := s.queue.bytes.length } }

/-- `cursor <= bytes.length`, the buffer invariant of the spec. -/
def CommandQueue.inv (q : CommandQueue) : Prop :=
  q.cursor ≤ q.bytes.length

/-- The contract a reentrant flush function obeys, used to propagate the
buffer invariant through `applyLoop`: from a state satisfying the
invariant, a completed flush leaves the cursor where it was with the
buffer truncated to it, and a panicking flush leaves the cursor where it
was with at least that many bytes still present. -/
def FlushInv (flush : ApplyState → FlushResult) : Prop :=
  ∀ t r, t.queue.cursor ≤ t.queue.bytes.length → flush t = some r →
    (∀ s1, r = Except.ok s1 →
      s1.queue.cursor = t.queue.cursor ∧
      s1.queue.bytes.length = t.queue.cursor) ∧
    (∀ p s1, r = Except.error (p, s1) →
      s1.queue.cursor = t.queue.cursor ∧
      t.queue.cursor ≤ s1.queue.bytes.length)

/-! ## Theorems -/

theorem packCmd_length (c : Cmd) : (packCmd c).length = metaSize + c.size := by
  simp [packCmd, metaSize]; omega

theorem packList_cons (c : Cmd) (cs : List Cmd) :
    packList (c :: cs) = packCmd c ++ packList cs := rfl

theorem length_le_packList (cs : List Cmd) : cs.length ≤ (packList cs).length := by
  induction cs with
  | nil => simp [packList]
  | cons c cs ih =>
      rw [packList_cons, List.length_append, List.length_cons, packCmd_length]
      simp only [metaSize]
      omega

theorem pushList_eq (q : CommandQueue) (cs : List Cmd) :
    pushList q cs = ⟨q.bytes ++ packList cs, q.cursor, q.panic_recovery⟩ := by
  induction cs generalizing q with
  | nil => cases q; simp [pushList, packList]
  | cons c cs ih =>
      show pushList (q.push c) cs = _
      rw [ih]
      simp [CommandQueue.push, packList_cons]

/-- An apply-or-drop call on a queue whose cursor already sits at the end
of the buffer does nothing (the loop body never runs and the truncation
is the identity). -/
theorem apply_id (fuel : Nat) (hf : 1 ≤ fuel) (world : Bool) (s : ApplyState)
    (h : s.queue.cursor = s.queue.bytes.length) :
    apply_or_drop_queued fuel world s = some (Except.ok s) := by
  obtain ⟨f, rfl⟩ : ∃ f, fuel = f + 1 := ⟨fuel - 1, by omega⟩
  obtain ⟨⟨bytes, cursor, rec1⟩, ap, dr⟩ := s
  simp only at h
  subst h
  simp [apply_or_drop_queued, applyLoop]

/-- The apply loop over a region packing only non-requeueing,
non-faulting commands, with a flush function that is the identity on
fully-caught-up states (as the reentrant flush is): each command is
applied exactly once in order, and the loop ends by truncating to
`start`. -/
theorem applyLoop_basics (flush : ApplyState → FlushResult)
    (Hf : ∀ t : ApplyState, t.queue.cursor = t.queue.bytes.length →
      flush t = some (Except.ok t)) :
    ∀ (l : List (Nat × Nat)) (steps : Nat) (pre : List Cell) (start : Nat)
      (ap dr : List Nat) (rec1 : List Cell),
      l.length < steps →
      applyLoop flush true steps start (pre ++ packList (basics l)).length pre.length
          ⟨⟨pre ++ packList (basics l), (pre ++ packList (basics l)).length, rec1⟩, ap, dr⟩ =
        some (Except.ok ⟨⟨(pre ++ packList (basics l)).take start, start, rec1⟩,
          ap ++ l.map Prod.fst, dr ++ l.map Prod.fst⟩) := by
  intro l
  induction l with
  | nil =>
      intro steps pre start ap dr rec1 hsteps
      obtain ⟨st, rfl⟩ : ∃ st, steps = st + 1 := ⟨steps - 1, by omega⟩
      simp [applyLoop, basics, packList]
  | cons p rest ih =>
      intro steps pre start ap dr rec1 hsteps
      obtain ⟨st, rfl⟩ : ∃ st, steps = st + 1 := ⟨steps - 1, by omega⟩
      obtain ⟨i, sz⟩ := p
      have hb : basics ((i, sz) :: rest) = Cmd.basic i sz :: basics rest := rfl
      rw [hb, packList_cons, ← List.append_assoc]
      have hlt : pre.length < ((pre ++ packCmd (Cmd.basic i sz)) ++ packList (basics rest)).length := by
        rw [List.length_append, List.length_append, packCmd_length]
        simp only [metaSize, Cmd.size]
        omega
      have hget : ((pre ++ packCmd (Cmd.basic i sz)) ++ packList (basics rest))[pre.length]? =
          some (Cell.header (Cmd.basic i sz)) := by
        rw [List.append_assoc, List.getElem?_append_right (Nat.le_refl pre.length)]
        simp [packCmd]
      simp only [applyLoop, hlt, if_true, hget]
      rw [consume_command_and_get_size]
      simp only [if_true]
      rw [Hf _ rfl]
      have hlen : pre.length + metaSize + Cmd.size (Cmd.basic i sz) =
          (pre ++ packCmd (Cmd.basic i sz)).length := by
        rw [List.length_append, packCmd_length]
        omega
      rw [hlen]
      have key := ih st (pre ++ packCmd (Cmd.basic i sz)) start (ap ++ [i]) (dr ++ [i]) rec1
        (by simpa using Nat.lt_of_succ_lt_succ hsteps)
      simpa [List.append_assoc] using key

/-- Pushes from inside an apply behavior never touch the cursor and only
grow the buffer. -/
theorem rawPushList_cursor_le (cs : List Cmd) :
    ∀ s : ApplyState, (rawPushList s cs).queue.cursor = s.queue.cursor ∧
      s.queue.bytes.length ≤ (rawPushList s cs).queue.bytes.length := by
  induction cs with
  | nil => exact fun s => ⟨rfl, Nat.le_refl _⟩
  | cons c rest ih =>
      intro s
      have h0 : rawPushList s (c :: rest) = rawPushList (rawPush s c) rest := rfl
      have h1 := ih (rawPush s c)
      have h2 : (rawPush s c).queue.bytes.length =
          s.queue.bytes.length + (packCmd c).length := by
        simp [rawPush, CommandQueue.push]
      rw [h0]
      exact ⟨h1.1, by omega⟩

/-- The consume fn preserves the cursor and keeps at least `cursor` many
bytes in the buffer, whether it completes or unwinds, provided the
reentrant flush obeys `FlushInv`. -/
theorem consume_inv (flush : ApplyState → FlushResult) (Hf : FlushInv flush)
    (world : Bool) (c : Cmd) (t : ApplyState)
    (r : Except (Nat × ApplyState) ApplyState)
    (hinv : t.queue.cursor ≤ t.queue.bytes.length)
    (h : consume_command_and_get_size flush world c t = some r) :
    (∀ s1, r = Except.ok s1 →
      s1.queue.cursor = t.queue.cursor ∧ t.queue.cursor ≤ s1.queue.bytes.length) ∧
    (∀ p s1, r = Except.error (p, s1) →
      s1.queue.cursor = t.queue.cursor ∧ t.queue.cursor ≤ s1.queue.bytes.length) := by
  cases world with
  | false =>
      have h' : some (Except.ok (⟨t.queue, t.applied, t.dropped ++ [c.ident]⟩ : ApplyState)) =
          some r := by
        rw [← h]
        cases c <;> rfl
      obtain rfl : Except.ok (⟨t.queue, t.applied, t.dropped ++ [c.ident]⟩ : ApplyState) = r :=
        Option.some.inj h'
      refine ⟨fun s1 h1 => ?_, fun p s1 h1 => absurd h1 (by simp)⟩
      obtain rfl : _ = s1 := Except.ok.inj h1
      exact ⟨rfl, hinv⟩
  | true =>
      cases c with
      | basic i sz =>
          have h' : flush ⟨t.queue, t.applied ++ [i], t.dropped ++ [i]⟩ = some r := h
          have hc := Hf ⟨t.queue, t.applied ++ [i], t.dropped ++ [i]⟩ r hinv h'
          refine ⟨fun s1 h1 => ?_, fun p s1 h1 => hc.2 p s1 h1⟩
          have h2 := hc.1 s1 h1
          exact ⟨h2.1, le_of_eq h2.2.symm⟩
      | pusher i sz subs =>
          have h' : flush
              ⟨(rawPushList ⟨t.queue, t.applied ++ [i], t.dropped⟩ subs).queue,
               (rawPushList ⟨t.queue, t.applied ++ [i], t.dropped⟩ subs).applied,
               (rawPushList ⟨t.queue, t.applied ++ [i], t.dropped⟩ subs).dropped ++ [i]⟩ =
              some r := h
          have hp := rawPushList_cursor_le subs ⟨t.queue, t.applied ++ [i], t.dropped⟩
          have hpc : (rawPushList ⟨t.queue, t.applied ++ [i], t.dropped⟩ subs).queue.cursor =
              t.queue.cursor := hp.1
          have hpl : t.queue.bytes.length ≤
              (rawPushList ⟨t.queue, t.applied ++ [i], t.dropped⟩ subs).queue.bytes.length :=
            hp.2
          have hu : (rawPushList ⟨t.queue, t.applied ++ [i], t.dropped⟩ subs).queue.cursor ≤
              (rawPushList ⟨t.queue, t.applied ++ [i], t.dropped⟩ subs).queue.bytes.length := by
            omega
          have hc := Hf
            ⟨(rawPushList ⟨t.queue, t.applied ++ [i], t.dropped⟩ subs).queue,
             (rawPushList ⟨t.queue, t.applied ++ [i], t.dropped⟩ subs).applied,
             (rawPushList ⟨t.queue, t.applied ++ [i], t.dropped⟩ subs).dropped ++ [i]⟩ r hu h'
          constructor
          · intro s1 h1
            have h2 : s1.queue.cursor =
                (rawPushList ⟨t.queue, t.applied ++ [i], t.dropped⟩ subs).queue.cursor ∧
                s1.queue.bytes.length =
                (rawPushList ⟨t.queue, t.applied ++ [i], t.dropped⟩ subs).queue.cursor :=
              hc.1 s1 h1
            rw [hpc] at h2
            exact ⟨h2.1, le_of_eq h2.2.symm⟩
          · intro p s1 h1
            have h2 : s1.queue.cursor =
                (rawPushList ⟨t.queue, t.applied ++ [i], t.dropped⟩ subs).queue.cursor ∧
                (rawPushList ⟨t.queue, t.applied ++ [i], t.dropped⟩ subs).queue.cursor ≤
                s1.queue.bytes.length :=
              hc.2 p s1 h1
            rw [hpc] at h2
            exact h2
      | panicking i sz =>
          have h' : some (Except.error
              (i, (⟨t.queue, t.applied, t.dropped ++ [i]⟩ : ApplyState))) = some r := h
          obtain rfl : Except.error
              (i, (⟨t.queue, t.applied, t.dropped ++ [i]⟩ : ApplyState)) = r :=
            Option.some.inj h'
          refine ⟨fun s1 h1 => absurd h1 (by simp), fun p s1 h1 => ?_⟩
          injection h1 with h2
          injection h2 with h3 h4
          subst h4
          exact ⟨rfl, hinv⟩

/-- The apply loop preserves the buffer invariant: entered with the
shared cursor at the snapshot `stop` (with `start ≤ stop ≤ length`), a
completed walk ends with `cursor = bytes.length = start`, and a
panicking walk ends with `cursor = start` and at least `start` bytes
still present (exactly the repaired state handed to `resume_unwind`). -/
theorem applyLoop_inv (flush : ApplyState → FlushResult) (Hf : FlushInv flush)
    (world : Bool) :
    ∀ (steps start stop lc : Nat) (s : ApplyState)
      (r : Except (Nat × ApplyState) ApplyState),
      s.queue.cursor = stop → stop ≤ s.queue.bytes.length → start ≤ stop →
      applyLoop flush world steps start stop lc s = some r →
      (∀ s1, r = Except.ok s1 →
        s1.queue.cursor = start ∧ s1.queue.bytes.length = start) ∧
      (∀ p s1, r = Except.error (p, s1) →
        s1.queue.cursor = start ∧ start ≤ s1.queue.bytes.length) := by
  intro steps
  induction steps with
  | zero =>
      intro start stop lc s r _ _ _ hrun
      exact absurd hrun (by simp [applyLoop])
  | succ st ih =>
      intro start stop lc s r hcur hlen hss hrun
      rw [applyLoop] at hrun
      split at hrun
      · -- lc < stop: a record is read and consumed
        split at hrun
        next c hcell =>
          split at hrun
          next hcons => exact absurd hrun (by simp)
          next s1 hcons =>
            have hc := consume_inv flush Hf world c s (Except.ok s1)
              (by omega) hcons
            have h1 := hc.1 s1 rfl
            exact ih start stop (lc + metaSize + c.size) s1 r
              (h1.1.trans hcur) (hcur ▸ h1.2) hss hrun
          next p s1 hcons =>
            have hc := consume_inv flush Hf world c s (Except.error (p, s1))
              (by omega) hcons
            have h1 := hc.2 p s1 rfl
            have hs1l : stop ≤ s1.queue.bytes.length := hcur ▸ h1.2
            obtain rfl := Option.some.inj hrun
            refine ⟨fun s2 h2 => absurd h2 (by simp), fun p2 s2 h2 => ?_⟩
            injection h2 with h3
            injection h3 with h4 h5
            subst h5
            by_cases h0 : start = 0
            · subst h0
              exact ⟨rfl, Nat.zero_le _⟩
            · rw [if_neg h0]
              refine ⟨rfl, ?_⟩
              show start ≤ (s1.queue.bytes.take start).length
              rw [List.length_take]
              omega
        next hcell => exact absurd hrun (by simp)
      · -- lc ≥ stop: the loop ends and truncates to start
        obtain rfl := Option.some.inj hrun
        refine ⟨fun s1 h1 => ?_, fun p s1 h1 => absurd h1 (by simp)⟩
        obtain rfl : _ = s1 := Except.ok.inj h1
        refine ⟨rfl, ?_⟩
        show (s.queue.bytes.take start).length = start
        rw [List.length_take]
        omega

/-- `apply_or_drop_queued` preserves the buffer invariant: from a state
with `cursor ≤ bytes.length`, normal completion leaves
`cursor = bytes.length = start` (the entry cursor), and the failure path
leaves `cursor = start` with at least `start` bytes in the buffer. -/
theorem apply_or_drop_inv :
    ∀ (fuel : Nat) (world : Bool) (s : ApplyState)
      (r : Except (Nat × ApplyState) ApplyState),
      s.queue.cursor ≤ s.queue.bytes.length →
      apply_or_drop_queued fuel world s = some r →
      (∀ s1, r = Except.ok s1 →
        s1.queue.cursor = s.queue.cursor ∧ s1.queue.bytes.length = s.queue.cursor) ∧
      (∀ p s1, r = Except.error (p, s1) →
        s1.queue.cursor = s.queue.cursor ∧ s.queue.cursor ≤ s1.queue.bytes.length) := by
  intro fuel
  induction fuel with
  | zero =>
      intro world s r _ hrun
      exact absurd hrun (by simp [apply_or_drop_queued])
  | succ f ih =>
      intro world s r hinv hrun
      have Hf : FlushInv (fun t => apply_or_drop_queued f true t) :=
        fun t r' ht h' => ih true t r' ht h'
      rw [apply_or_drop_queued] at hrun
      exact applyLoop_inv _ Hf world (s.queue.bytes.length - s.queue.cursor + 1)
        s.queue.cursor s.queue.bytes.length s.queue.cursor
        ⟨⟨s.queue.bytes, s.queue.bytes.length, s.queue.panic_recovery⟩, s.applied, s.dropped⟩
        r rfl (Nat.le_refl _) hinv hrun

/-- In discard mode the consume fn just drops the value: one entry in the
drop log, no world access, no reentrant flush. -/
theorem consume_discard (flush : ApplyState → FlushResult) (c : Cmd) (s : ApplyState) :
    consume_command_and_get_size flush false c s =
      some (Except.ok { s with dropped := s.dropped ++ [c.ident] }) := by
  cases c <;> rfl

/-- The apply loop in discard mode over a packed region: every record's
consumption path runs exactly once, in order, with no store mutation. -/
theorem applyLoop_discard (flush : ApplyState → FlushResult) :
    ∀ (cs : List Cmd) (steps : Nat) (pre : List Cell) (start cur : Nat)
      (ap dr : List Nat) (rec1 : List Cell),
      cs.length < steps →
      applyLoop flush false steps start (pre ++ packList cs).length pre.length
          ⟨⟨pre ++ packList cs, cur, rec1⟩, ap, dr⟩ =
        some (Except.ok ⟨⟨(pre ++ packList cs).take start, start, rec1⟩,
          ap, dr ++ cs.map Cmd.ident⟩) := by
  intro cs
  induction cs with
  | nil =>
      intro steps pre start cur ap dr rec1 hsteps
      obtain ⟨st, rfl⟩ : ∃ st, steps = st + 1 := ⟨steps - 1, by omega⟩
      simp [applyLoop, packList]
  | cons c rest ih =>
      intro steps pre start cur ap dr rec1 hsteps
      obtain ⟨st, rfl⟩ : ∃ st, steps = st + 1 := ⟨steps - 1, by omega⟩
      rw [packList_cons, ← List.append_assoc]
      have hlt : pre.length < ((pre ++ packCmd c) ++ packList rest).length := by
        rw [List.length_append, List.length_append, packCmd_length]
        simp only [metaSize]
        omega
      have hget : ((pre ++ packCmd c) ++ packList rest)[pre.length]? =
          some (Cell.header c) := by
        rw [List.append_assoc, List.getElem?_append_right (Nat.le_refl pre.length)]
        simp [packCmd]
      simp only [applyLoop, hlt, if_true, hget]
      rw [consume_discard]
      have hlen : pre.length + metaSize + c.size = (pre ++ packCmd c).length := by
        rw [List.length_append, packCmd_length]
        omega
      rw [hlen]
      have key := ih st (pre ++ packCmd c) start cur ap (dr ++ [c.ident]) rec1
        (Nat.lt_of_succ_lt_succ hsteps)
      simpa [List.append_assoc] using key

/-- C6: destroying a queue holding un-applied commands runs every
remaining command's consumption path exactly once in discard mode — one
drop-log entry per command, in order, and no store mutation
(`applied = []`) — and emits the warning diagnostic (first component
`true`), leaving the storage empty. -/
theorem C6_drop_discards_and_warns (cs : List Cmd) (fuel : Nat)
    (hf : 1 ≤ fuel) (hne : cs ≠ []) :
    dropQueue fuel (pushList emptyQueue cs) =
      (true, some (Except.ok ⟨emptyQueue, [], cs.map Cmd.ident⟩)) := by
  obtain ⟨f, rfl⟩ : ∃ f, fuel = f + 1 := ⟨fuel - 1, by omega⟩
  rw [dropQueue, pushList_eq, Prod.mk.injEq]
  constructor
  · cases cs with
    | nil => exact absurd rfl hne
    | cons c rest => simp [emptyQueue, packList_cons, packCmd]
  · have key := applyLoop_discard (fun t => apply_or_drop_queued f true t) cs
      ((packList cs).length + 1) [] 0 (packList cs).length [] [] []
      (by have := length_le_packList cs; omega)
    rw [apply_or_drop_queued]
    simpa [emptyQueue] using key

/-- Witness for C6: three commands (one of each kind), fuel 1. -/
theorem C6_drop_discards_and_warns_witness :
    dropQueue 1 (pushList emptyQueue [Cmd.basic 1 2, Cmd.panicking 2 0, Cmd.pusher 3 1 []]) =
      (true, some (Except.ok ⟨emptyQueue, [], [1, 2, 3]⟩)) :=
  C6_drop_discards_and_warns [Cmd.basic 1 2, Cmd.panicking 2 0, Cmd.pusher 3 1 []] 1
    (Nat.le_refl 1) (List.cons_ne_nil _ _)

/-- C1: for every sequence of commands pushed onto a fresh queue, none of
which requeues further commands when applied (and none of which faults),
a single apply call invokes each command's apply behavior exactly once,
in push order (`applied = l.map Prod.fst`, one entry per pushed command),
and then resets the buffer to empty (`queue = emptyQueue`).  The fuel
only has to cover the flush-nesting depth, which is 2 here: the call
itself plus the no-op reentrant flush after each command. -/
theorem C1_apply_in_push_order (l : List (Nat × Nat)) (fuel : Nat) (hf : 2 ≤ fuel) :
    applyFresh fuel (pushList emptyQueue (basics l)) =
      some (Except.ok ⟨emptyQueue, l.map Prod.fst, l.map Prod.fst⟩) := by
  obtain ⟨f, rfl⟩ : ∃ f, fuel = f + 1 := ⟨fuel - 1, by omega⟩
  have Hf : ∀ t : ApplyState, t.queue.cursor = t.queue.bytes.length →
      apply_or_drop_queued f true t = some (Except.ok t) :=
    fun t ht => apply_id f (by omega) true t ht
  have hsteps : l.length < (packList (basics l)).length + 1 := by
    have h1 := length_le_packList (basics l)
    rw [show (basics l).length = l.length by simp [basics]] at h1
    omega
  have key := applyLoop_basics _ Hf l ((packList (basics l)).length + 1) [] 0 [] [] []
    (by simpa using hsteps)
  rw [applyFresh, pushList_eq, apply_or_drop_queued]
  simpa [emptyQueue] using key

/-- Witness for C1: two non-requeueing commands at fuel 2. -/
theorem C1_apply_in_push_order_witness :
    applyFresh 2 (pushList emptyQueue (basics [(5, 0), (6, 3)])) =
      some (Except.ok ⟨emptyQueue, [5, 6], [5, 6]⟩) :=
  C1_apply_in_push_order [(5, 0), (6, 3)] 2 (by decide)

/-- C2: application order is depth-first.  Pushing `A = pusher 1 [A2]`
then `B = basic 3` and applying yields the observed order `A, A2, B`,
i.e. `[1, 2, 3]`; with a deeper chain `A` pushes `A2` which pushes `A3`,
all of `A2`'s descendants run before the sibling `B = basic 4`:
`[1, 2, 3, 4]`. -/
theorem C2_depth_first_order :
    applyFresh 12 (pushList emptyQueue [Cmd.pusher 1 4 [Cmd.basic 2 0], Cmd.basic 3 1]) =
      some (Except.ok ⟨emptyQueue, [1, 2, 3], [1, 2, 3]⟩) ∧
    applyFresh 12 (pushList emptyQueue
        [Cmd.pusher 1 0 [Cmd.pusher 2 2 [Cmd.basic 3 0]], Cmd.basic 4 0]) =
      some (Except.ok ⟨emptyQueue, [1, 2, 3, 4], [1, 2, 3, 4]⟩) :=
  ⟨rfl, rfl⟩

/-- C3: fault handling.  Pushing `[X, Y, Z] = [basic 10, panicking 20,
basic 30]` and applying: the panic payload `20` reaches the caller, `X`
was applied (`applied = [10]`), `Y`'s moved-out value was dropped
(`20 ∈ dropped`), the remaining bytes (the record of `Z`) were moved
through the recovery buffer and — as `start = 0`, the outermost level —
spliced back onto the truncated main buffer, leaving the recovery buffer
empty; a second apply runs `Z` exactly once and empties the queue.  The
third and fourth conjuncts replay the nested scenario of the source's
`test_command_queue_inner_nested_panic_safe`: at the inner level
(`start ≠ 0`) the recovery buffer is only extended, and the splice at the
outermost level preserves the original relative order of the survivors
(`basic 3` from the inner level before `basic 4` from the outer), so that
after queueing `basic 5` a successful flush applies `3, 4, 5`. -/
theorem C3_panic_recovery :
    applyFresh 4 (pushList emptyQueue [Cmd.basic 10 4, Cmd.panicking 20 24, Cmd.basic 30 0]) =
      some (Except.error (20, ⟨⟨packCmd (Cmd.basic 30 0), 0, []⟩, [10], [10, 20]⟩)) ∧
    apply_or_drop_queued 4 true ⟨⟨packCmd (Cmd.basic 30 0), 0, []⟩, [10], [10, 20]⟩ =
      some (Except.ok ⟨emptyQueue, [10, 30], [10, 20, 30]⟩) ∧
    applyFresh 6 (pushList emptyQueue
        [Cmd.basic 1 0, Cmd.pusher 100 8 [Cmd.basic 2 0, Cmd.panicking 99 16, Cmd.basic 3 0],
         Cmd.basic 4 0]) =
      some (Except.error (99,
        ⟨⟨packList [Cmd.basic 3 0, Cmd.basic 4 0], 0, []⟩, [1, 100, 2], [1, 100, 2, 99]⟩)) ∧
    apply_or_drop_queued 6 true
        ⟨⟨packList [Cmd.basic 3 0, Cmd.basic 4 0, Cmd.basic 5 0], 0, []⟩,
         [1, 100, 2], [1, 100, 2, 99]⟩ =
      some (Except.ok ⟨emptyQueue, [1, 100, 2, 3, 4, 5], [1, 100, 2, 99, 3, 4, 5]⟩) :=
  ⟨rfl, rfl, rfl, rfl⟩

/-- C4 counterexample: the claim says commands pushed during the call are
picked up "in a later iteration of the same loop (not a separate pass)
because the loop re-reads the buffer's length dynamically".  The source
instead bounds the loop by the snapshotted `stop` and picks such commands
up in the nested recursive flush.  The two mechanisms are observably
different: on pushes `[pusher 1 [basic 2], basic 3]` the code applies
`[1, 2, 3]` (depth-first), while a loop that picked the pushed command up
in a later iteration of the same walk (`applyDynamic`, written from the
claim's words) would apply `[1, 3, 2]`. -/
theorem C4_same_loop_pickup_refuted :
    applyFresh 4 (pushList emptyQueue [Cmd.pusher 1 0 [Cmd.basic 2 0], Cmd.basic 3 0]) =
      some (Except.ok ⟨emptyQueue, [1, 2, 3], [1, 2, 3]⟩) ∧
    applyDynamic 5 ⟨pushList emptyQueue [Cmd.pusher 1 0 [Cmd.basic 2 0], Cmd.basic 3 0], [], []⟩ =
      some ⟨emptyQueue, [1, 3, 2], [1, 3, 2]⟩ ∧
    ([1, 2, 3] : List Nat) ≠ [1, 3, 2] :=
  ⟨rfl, rfl, by decide⟩

/-- C4 (amended): any command pushed while the call is running lands
entirely past the snapshotted stop offset (its header is written at the
old buffer length) and is invisible to the current walk, whose loop runs
only up to the snapshot; such commands are applied by the nested
recursive flush performed right after the pushing command's apply — a
separate nested pass — before the walk's next iteration, giving the
depth-first order `[1, 2, 3]` on pushes `[pusher 1 [basic 2], basic 3]`. -/
theorem C4_pushed_lands_past_stop :
    (∀ (s : ApplyState) (c : Cmd),
      (rawPush s c).queue.bytes.length = s.queue.bytes.length + (metaSize + c.size) ∧
      (rawPush s c).queue.bytes[s.queue.bytes.length]? = some (Cell.header c)) ∧
    applyFresh 6 (pushList emptyQueue [Cmd.pusher 1 2 [Cmd.basic 2 4], Cmd.basic 3 0]) =
      some (Except.ok ⟨emptyQueue, [1, 2, 3], [1, 2, 3]⟩) := by
  refine ⟨fun s c => ⟨?_, ?_⟩, rfl⟩
  · simp [rawPush, CommandQueue.push, packCmd, metaSize]; omega
  · simp [rawPush, CommandQueue.push, packCmd,
      List.getElem?_append_right (Nat.le_refl s.queue.bytes.length)]

/-- C7: `append` moves all bytes from the other queue's buffer onto this
queue's tail and leaves the other queue empty; pushing `[P, Q]` into
`queue1` and `[R]` into `queue2`, merging, and applying `queue1` yields
the order `P, Q, R = [1, 2, 3]`, with `queue2` left empty. -/
theorem C7_append_moves_bytes_preserves_order :
    (∀ q other : CommandQueue,
      (CommandQueue.append q other).1.bytes = q.bytes ++ other.bytes ∧
      (CommandQueue.append q other).2.bytes = [] ∧
      (CommandQueue.append q other).2.is_empty = true) ∧
    applyFresh 8 (CommandQueue.append (pushList emptyQueue [Cmd.basic 1 2, Cmd.basic 2 0])
        (pushList emptyQueue [Cmd.basic 3 5])).1 =
      some (Except.ok ⟨emptyQueue, [1, 2, 3], [1, 2, 3]⟩) := by
  refine ⟨fun q other => ⟨rfl, rfl, ?_⟩, rfl⟩
  simp [CommandQueue.append, CommandQueue.is_empty]

/-- C8: for every command value pushed, `push` appends a packed
`(CommandMeta, C)` pair at the tail, so the buffer length grows by
exactly `size_of::<CommandMeta>() + size_of::<C>()`; the cursor (and the
recovery buffer) are untouched. -/
theorem C8_push_grows_by_header_plus_payload (q : CommandQueue) (c : Cmd) :
    (q.push c).bytes.length = q.bytes.length + (metaSize + c.size) ∧
    (q.push c).cursor = q.cursor ∧
    (q.push c).panic_recovery = q.panic_recovery := by
  refine ⟨?_, rfl, rfl⟩
  simp [CommandQueue.push, packCmd, metaSize]; omega

/-- C9: a zero-sized command still gets a header written by `push` (the
buffer grows by exactly the header size and the header cell is at the old
tail), and an apply invokes its apply behavior exactly once — the local
cursor advance past the payload is zero, and bookkeeping stays correct:
the queue ends empty with `cursor = 0`.  A discard pass (drop) likewise
consumes it exactly once. -/
theorem C9_zero_sized_commands :
    (emptyQueue.push (Cmd.basic 7 0)).bytes.length = metaSize ∧
    (emptyQueue.push (Cmd.basic 7 0)).bytes[0]? = some (Cell.header (Cmd.basic 7 0)) ∧
    apply_or_drop_queued 2 true ⟨emptyQueue.push (Cmd.basic 7 0), [], []⟩ =
      some (Except.ok ⟨emptyQueue, [7], [7]⟩) ∧
    apply_or_drop_queued 1 false ⟨emptyQueue.push (Cmd.basic 7 0), [], []⟩ =
      some (Except.ok ⟨emptyQueue, [], [7]⟩) :=
  ⟨rfl, rfl, rfl, rfl⟩

/-- C10: `append` modifies only the two byte buffers: both cursors and
both recovery buffers are unchanged, and the other queue is emptied
solely by emptying its bytes vector — its cursor is never reset. -/
theorem C10_append_frame (q other : CommandQueue) :
    (CommandQueue.append q other).1.bytes = q.bytes ++ other.bytes ∧
    (CommandQueue.append q other).1.cursor = q.cursor ∧
    (CommandQueue.append q other).1.panic_recovery = q.panic_recovery ∧
    (CommandQueue.append q other).2.bytes = [] ∧
    (CommandQueue.append q other).2.cursor = other.cursor ∧
    (CommandQueue.append q other).2.panic_recovery = other.panic_recovery :=
  ⟨rfl, rfl, rfl, rfl, rfl, rfl⟩

/-- C5 (amended): the invariant `cursor <= bytes.length` is preserved by
`push` (which leaves the cursor unchanged), by `append` on the
destination queue, by `append` on the source queue whenever the source's
cursor is `0` (its at-rest state — `append` empties the source's bytes
but never resets its cursor, so this is the most that holds), and by
apply-or-discard in both modes on both the normal and the failure path;
on normal completion both the buffer length and the cursor equal the
call's start position. -/
theorem C5_invariant_preservation :
    (∀ (q : CommandQueue) (c : Cmd), q.inv →
      (q.push c).inv ∧ (q.push c).cursor = q.cursor) ∧
    (∀ q other : CommandQueue, q.inv → (CommandQueue.append q other).1.inv) ∧
    (∀ q other : CommandQueue, other.cursor = 0 →
      (CommandQueue.append q other).2.inv) ∧
    (∀ (fuel : Nat) (world : Bool) (s s1 : ApplyState), s.queue.inv →
      apply_or_drop_queued fuel world s = some (Except.ok s1) →
      s1.queue.cursor = s.queue.cursor ∧ s1.queue.bytes.length = s.queue.cursor ∧
        s1.queue.inv) ∧
    (∀ (fuel : Nat) (world : Bool) (s : ApplyState) (p : Nat) (s1 : ApplyState),
      s.queue.inv → apply_or_drop_queued fuel world s = some (Except.error (p, s1)) →
      s1.queue.cursor = s.queue.cursor ∧ s1.queue.inv) := by
  refine ⟨fun q c hq => ⟨?_, rfl⟩, fun q other hq => ?_, fun q other h0 => ?_,
    fun fuel world s s1 hq hrun => ?_, fun fuel world s p s1 hq hrun => ?_⟩
  · show q.cursor ≤ (q.bytes ++ packCmd c).length
    rw [List.length_append]
    exact le_trans hq (Nat.le_add_right _ _)
  · show q.cursor ≤ (q.bytes ++ other.bytes).length
    rw [List.length_append]
    exact le_trans hq (Nat.le_add_right _ _)
  · show other.cursor ≤ ([] : List Cell).length
    rw [h0]
    exact Nat.le_refl 0
  · have h1 := (apply_or_drop_inv fuel world s (Except.ok s1) hq hrun).1 s1 rfl
    exact ⟨h1.1, h1.2, by rw [CommandQueue.inv, h1.1, h1.2]⟩
  · have h1 := (apply_or_drop_inv fuel world s (Except.error (p, s1)) hq hrun).2 p s1 rfl
    exact ⟨h1.1, by rw [CommandQueue.inv, h1.1]; exact h1.2⟩

/-- Witness for C5 at concrete inputs: the push clause on a fresh queue. -/
theorem C5_invariant_preservation_witness :
    (emptyQueue.push (Cmd.basic 1 0)).inv ∧
    (emptyQueue.push (Cmd.basic 1 0)).cursor = emptyQueue.cursor :=
  C5_invariant_preservation.1 emptyQueue (Cmd.basic 1 0) (Nat.le_refl 0)

/-- C5 counterexample: the `cursor <= bytes.length` invariant is NOT
preserved by `append` on the source queue.  A queue whose record was
fully consumed (`cursor = bytes.length = metaSize`) satisfies the
invariant, but after `append` empties its bytes without resetting its
cursor, `cursor = metaSize > 0 = bytes.length`. -/
theorem C5_append_breaks_other_invariant :
    CommandQueue.inv ⟨packCmd (Cmd.basic 0 0), metaSize, []⟩ ∧
    ¬ CommandQueue.inv
        (CommandQueue.append emptyQueue ⟨packCmd (Cmd.basic 0 0), metaSize, []⟩).2 := by
  constructor
  · simp [CommandQueue.inv, packCmd, metaSize]
  · simp [CommandQueue.inv, CommandQueue.append, metaSize]

end CommandQueueModel
